import Mathlib

/-!
# Verification of the ShakespeareBot hybrid retrieval engine

Shallow embedding of the retrieval core of the repository:
`src/retrieve.py` (hybrid BM25 + embedding retrieval with score fusion,
exact-phrase boost, diversity filtering), `src/index.py` (index artifact
loading) and the constants of `src/config.py`.

Modelling conventions:
* Python floats are modelled as exact rationals (`ℚ`).
* The BM25 scorer and the sentence-embedding model are external black boxes
  (`rank_bm25.BM25Okapi.get_scores`, `SentenceTransformer.encode`); their
  per-row output vectors for the query at hand are inputs of the model
  (`bm25Scores`, `embSims`), exactly as the spec treats them.
* Python dicts are modelled as insertion-ordered association lists
  (`List (ℕ × ℚ)`): updating an existing key keeps its position, a new key is
  appended.  Python sets of small row indices are modelled as lists enumerated
  in ascending order (CPython iterates a set of small nonnegative ints whose
  values are below the hash-table size in ascending order).
* `np.argsort(xs)[::-1][:k]` uses an unstable sort whose tie order is
  unspecified; it is modelled as descending by score with ties in ascending
  index order.  No claim below depends on the tie order of this pool
  selection (concrete inputs keep boundary scores distinct).
* `sorted(..., key=..., reverse=True)` (CPython Timsort) is stable; it is
  modelled by a stable insertion sort `sortDescBy`.
-/

attribute [local semireducible] Rat.add Rat.sub Rat.mul Rat.inv

/-- Metadata record for one chunk, as built by `load_chunks` in
`src/index.py` and stored in `meta.pkl`. -/
structure ChunkMeta where
  chunk_id : String
  play : String
  act : ℕ
  scene : ℕ
  speaker : Option String := none
  line_start : Option ℕ := none
  line_end : Option ℕ := none
deriving DecidableEq

/-- Source result object built by `retrieve` (src/retrieve.py lines 204-215). -/
structure Source where
  sid : String
  chunk_id : String
  meta : ChunkMeta
  text : String
  score : ℚ
deriving DecidableEq

/-! ## Constants from `src/config.py` -/

def BM25_K : ℕ := 50

def EMBED_K : ℕ := 50

def TOP_K : ℕ := 8

def BM25_WEIGHT : ℚ := 4 / 10

def EMBED_WEIGHT : ℚ := 6 / 10

def MAX_PER_SCENE : ℕ := 3

/-- The default `eps` argument of `_min_max_normalise` (`1e-9`). -/
def EPS : ℚ := 1 / 1000000000

/-! ## String helpers -/

/-- Python `str.lower()` (ASCII range; all strings in play are ASCII apart
from punctuation, which both sides leave unchanged). -/
def pyLower (s : String) : String := ⟨s.data.map Char.toLower⟩

/-- `needle` starts `haystack`. -/
def startsWithSeq : List Char → List Char → Bool
  | [], _ => true
  | _ :: _, [] => false
  | a :: as, b :: bs => a = b && startsWithSeq as bs

/-- Python's substring test `needle in haystack`. -/
def containsSeq (needle : List Char) : List Char → Bool
  | [] => needle.isEmpty
  | c :: rest => startsWithSeq needle (c :: rest) || containsSeq needle rest

/-- Characters Python `str.split()` splits on. -/
def isPySpace (c : Char) : Bool :=
  c = ' ' || c = '\t' || c = '\n' || c = '\x0b' || c = '\x0c' || c = '\r'

/-- Word accumulator for `pySplit`; `cur` holds the current word reversed. -/
def pySplitAux (cur : List Char) : List Char → List String
  | [] => if cur.isEmpty then [] else [⟨cur.reverse⟩]
  | c :: rest =>
    if isPySpace c then
      if cur.isEmpty then pySplitAux [] rest
      else (⟨cur.reverse⟩ : String) :: pySplitAux [] rest
    else pySplitAux (c :: cur) rest

/-- Python `str.split()` with no argument: split on whitespace runs,
discarding empty pieces. -/
def pySplit (s : String) : List String := pySplitAux [] s.data

/-- `_strip_punct` (src/retrieve.py lines 89-93): lower-case, then delete
every character that is not a lowercase letter, digit or space
(`re.sub(r"[^a-z0-9 ]", "", text.lower())`).  Deleted characters are removed
without inserting a space. -/
def stripPunct (s : String) : String :=
  ⟨(s.data.map Char.toLower).filter
    (fun c => ('a' ≤ c && c ≤ 'z') || ('0' ≤ c && c ≤ '9') || c = ' ')⟩

/-! ## `_extract_phrase`: the regex `['"](.+?)['"]` under `re.search`

The pattern is: a quote-like character, a lazy non-empty run of arbitrary
non-newline characters, a quote-like character.  `re.search` tries start
positions left to right; at a fixed start the lazy group takes the shortest
content, i.e. the closing quote is the first quote-like character found at
distance at least two from the opening one, provided no newline intervenes. -/

def isQuoteChar (c : Char) : Bool := c = '\'' || c = '"'

/-- Scan for the closing quote: `acc` holds the (reversed) content matched by
the lazy group so far; a quote-like character closes the match, a newline
kills the attempt (`.` does not match `\n`). -/
def closeScan (acc : List Char) : List Char → Option (List Char)
  | [] => none
  | c :: rest =>
    if isQuoteChar c then some acc.reverse
    else if c = '\n' then none
    else closeScan (c :: acc) rest

/-- Attempt a match right after an opening quote: the lazy group must take at
least one character (which may itself be a quote-like character), then
`closeScan` looks for the closing quote. -/
def afterOpen : List Char → Option (List Char)
  | [] => none
  | c :: rest => if c = '\n' then none else closeScan [c] rest

/-- `re.search` over all start positions, left to right. -/
def reSearchQuoted : List Char → Option (List Char)
  | [] => none
  | c :: rest =>
    if isQuoteChar c then
      match afterOpen rest with
      | some content => some content
      | none => reSearchQuoted rest
    else reSearchQuoted rest

/-- `_extract_phrase` (src/retrieve.py lines 81-86). -/
def extractPhrase (query : String) : Option String :=
  (reSearchQuoted query.data).map (fun l => ⟨l⟩)

/-- The phrase `_phrase_boost` targets (src/retrieve.py lines 108-113): the
quoted phrase if present, else the whole query when it has at most 10
whitespace-separated words, else nothing.  (A phrase produced by the regex is
never the empty string, so `if not phrase` is equivalent to the regex having
found no match.) -/
def phraseTarget (query : String) : Option String :=
  match extractPhrase query with
  | some p => some p
  | none => if (pySplit query).length ≤ 10 then some query else none

/-! ## Association lists modelling Python dicts -/

/-- `d.get(i, v)` on a dict modelled as an insertion-ordered entry list. -/
def alistGetD : List (ℕ × ℚ) → ℕ → ℚ → ℚ
  | [], _, v => v
  | e :: rest, i, v => if e.1 = i then e.2 else alistGetD rest i v

/-- `i in d`. -/
def alistHas (d : List (ℕ × ℚ)) (i : ℕ) : Bool := d.any (fun e => e.1 == i)

/-- `d[i] = v`: update in place if the key exists, else append. -/
def alistSet (d : List (ℕ × ℚ)) (i : ℕ) (v : ℚ) : List (ℕ × ℚ) :=
  if alistHas d i then d.map (fun e => if e.1 == i then (i, v) else e)
  else d ++ [(i, v)]

/-- Minimum of a value list (Python `min`, total on `[]` for convenience). -/
def listMin : List ℚ → ℚ
  | [] => 0
  | x :: xs => xs.foldl min x

/-- Maximum of a value list (Python `max`). -/
def listMax : List ℚ → ℚ
  | [] => 0
  | x :: xs => xs.foldl max x

/-- `_min_max_normalise` (src/retrieve.py lines 71-78): min-max normalise the
values of a score dict, guarding the range with `eps`. -/
def minMaxNormalise (scores : List (ℕ × ℚ)) (eps : ℚ := EPS) : List (ℕ × ℚ) :=
  match scores with
  | [] => []
  | _ =>
    let vals := scores.map (fun e => e.2)
    let lo := listMin vals
    let hi := listMax vals
    let rng := hi - lo + eps
    scores.map (fun e => (e.1, (e.2 - lo) / rng))

/-! ## Stable descending sort (CPython `sorted(..., reverse=True)`) -/

def insertDescBy {α : Type} (key : α → ℚ) (x : α) : List α → List α
  | [] => [x]
  | y :: ys => if key y ≤ key x then x :: y :: ys else y :: insertDescBy key x ys

/-- Stable sort, descending by `key`: elements with equal keys keep their
original relative order, exactly as CPython's stable `sorted` with
`reverse=True`. -/
def sortDescBy {α : Type} (key : α → ℚ) (l : List α) : List α :=
  l.foldr (insertDescBy key) []

/-- Model of `np.argsort(scores)[::-1]`: indices in descending score order
(tie order of the library sort is unspecified; modelled as ascending index). -/
def argsortDesc (scores : List ℚ) : List ℕ :=
  sortDescBy (fun i => scores.getD i 0) (List.range scores.length)

/-! ## The two candidate pools -/

/-- `_bm25_search` (src/retrieve.py lines 57-61): top-`k` rows by BM25 score,
keeping only strictly positive scores. -/
def bm25Search (scores : List ℚ) (k : ℕ) : List (ℕ × ℚ) :=
  ((argsortDesc scores).take k).filterMap
    (fun i => if 0 < scores.getD i 0 then some (i, scores.getD i 0) else none)

/-- `_embedding_search` (src/retrieve.py lines 64-68): top-`k` rows by dot
product; no thresholding. -/
def embSearch (sims : List ℚ) (k : ℕ) : List (ℕ × ℚ) :=
  ((argsortDesc sims).take k).map (fun i => (i, sims.getD i 0))

/-! ## The retrieve pipeline -/

/-- The inputs of one `retrieve` call: the loaded index artifacts
(`chunks`, `metas`), the per-row black-box scores for this query
(`bm25Scores` from BM25, `embSims` from the embedding dot products), and the
call arguments. -/
structure RetrieveInput where
  bm25Scores : List ℚ
  embSims : List ℚ
  chunks : List String
  metas : List ChunkMeta
  query : String
  k : ℕ := TOP_K
  play_filter : Option String := none
deriving DecidableEq

def defaultMeta : ChunkMeta := ⟨"", "", 0, 0, none, none, none⟩

/-- `if play_filter: ... pf in metas[idx]["play"].lower()` — the optional
case-insensitive substring work filter; `None` and the empty string are
falsy, hence no filtering. -/
def passesFilter (play_filter : Option String) (meta : ChunkMeta) : Bool :=
  match play_filter with
  | none => true
  | some p => if p = "" then true
      else containsSeq (pyLower p).data (pyLower meta.play).data

def bm25Pool (inp : RetrieveInput) : List (ℕ × ℚ) := bm25Search inp.bm25Scores BM25_K

def embPool (inp : RetrieveInput) : List (ℕ × ℚ) := embSearch inp.embSims EMBED_K

/-- The candidate set (src/retrieve.py lines 164-170): union of the two pools'
row indices, then the optional work filter.  Sets of row indices are
enumerated ascending (see the header note). -/
def candidates (inp : RetrieveInput) : List ℕ :=
  ((List.range (max inp.bm25Scores.length inp.embSims.length)).filter
    (fun i => ((bm25Pool inp).map Prod.fst).contains i
      || ((embPool inp).map Prod.fst).contains i)).filter
    (fun i => passesFilter inp.play_filter (inp.metas.getD i defaultMeta))

/-- `{idx: pool.get(idx, 0.0) for idx in candidates}`
(src/retrieve.py lines 176-177). -/
def candScores (pool : List (ℕ × ℚ)) (cands : List ℕ) : List (ℕ × ℚ) :=
  cands.map (fun i => (i, alistGetD pool i 0))

/-- Normalise each signal over the candidate set and fuse with the configured
weights (src/retrieve.py lines 179-186).  The fused dict is keyed in
candidate order.  (`bm25_norm[idx]` is a direct lookup; every candidate is a
key of both normalised dicts, so the total `alistGetD _ _ 0` agrees.) -/
def fuseScores (bPool ePool : List (ℕ × ℚ)) (cands : List ℕ) (eps : ℚ) :
    List (ℕ × ℚ) :=
  let bm25_norm := minMaxNormalise (candScores bPool cands) eps
  let emb_norm := minMaxNormalise (candScores ePool cands) eps
  cands.map (fun i =>
    (i, BM25_WEIGHT * alistGetD bm25_norm i 0 + EMBED_WEIGHT * alistGetD emb_norm i 0))

def fusedBase (inp : RetrieveInput) : List (ℕ × ℚ) :=
  fuseScores (bm25Pool inp) (embPool inp) (candidates inp) EPS

/-- `_phrase_boost` (src/retrieve.py lines 96-124): boost of `1.0` for every
given row whose punctuation-stripped text contains the punctuation-stripped
phrase; nothing if the phrase is missing or shorter than 6 stripped
characters. -/
def phraseBoost (candidates : List ℕ) (query : String) (chunks : List String) :
    List (ℕ × ℚ) :=
  match phraseTarget query with
  | none => []
  | some phrase =>
    let needle := stripPunct phrase
    if needle.length < 6 then []
    else candidates.filterMap (fun idx =>
      if containsSeq needle.data (stripPunct (chunks.getD idx "")).data
      then some (idx, (1 : ℚ)) else none)

/-- `all_indices` (src/retrieve.py lines 191-194): every corpus row, under the
same optional work filter. -/
def allIndices (inp : RetrieveInput) : List ℕ :=
  (List.range inp.chunks.length).filter
    (fun i => passesFilter inp.play_filter (inp.metas.getD i defaultMeta))

def boosts (inp : RetrieveInput) : List (ℕ × ℚ) :=
  phraseBoost (allIndices inp) inp.query inp.chunks

/-- The boost application loop (src/retrieve.py lines 196-199):
`fused[idx] = fused.get(idx, 0.0) + boost`, new keys appended. -/
def applyBoosts (fused boosts : List (ℕ × ℚ)) : List (ℕ × ℚ) :=
  boosts.foldl (fun f e => alistSet f e.1 (alistGetD f e.1 0 + e.2)) fused

def fusedFinal (inp : RetrieveInput) : List (ℕ × ℚ) :=
  applyBoosts (fusedBase inp) (boosts inp)

/-- `sorted(fused, key=fused.get, reverse=True)` (src/retrieve.py line 202),
kept as (index, fused score) entries. -/
def rankedAList (inp : RetrieveInput) : List (ℕ × ℚ) :=
  sortDescBy (fun e => e.2) (fusedFinal inp)

/-- One source dict (src/retrieve.py lines 205-215), `sid` assigned later. -/
def mkSource (inp : RetrieveInput) (e : ℕ × ℚ) : Source :=
  { sid := ""
    chunk_id := (inp.metas.getD e.1 defaultMeta).chunk_id
    meta := inp.metas.getD e.1 defaultMeta
    text := inp.chunks.getD e.1 ""
    score := e.2 }

def rankedSources (inp : RetrieveInput) : List Source :=
  (rankedAList inp).map (mkSource inp)

def sourceKey (s : Source) : String × ℕ × ℕ := (s.meta.play, s.meta.act, s.meta.scene)

/-- Recursion of `_apply_diversity` with the running per-key counts
(Python: `counts[key] = counts.get(key, 0) + 1; if counts[key] <= max: keep`). -/
def applyDiversityGo (maxPerScene : ℕ) (counts : String × ℕ × ℕ → ℕ) :
    List Source → List Source
  | [] => []
  | item :: rest =>
    let key := sourceKey item
    let c := counts key + 1
    let counts' := fun k => if k = key then c else counts k
    if c ≤ maxPerScene then item :: applyDiversityGo maxPerScene counts' rest
    else applyDiversityGo maxPerScene counts' rest

/-- `_apply_diversity` (src/retrieve.py lines 127-136). -/
def applyDiversity (ranked : List Source) (maxPerScene : ℕ) : List Source :=
  applyDiversityGo maxPerScene (fun _ => 0) ranked

/-- `for i, src in enumerate(sources, 1): src["sid"] = f"S{i}"`. -/
def assignSidsFrom (n : ℕ) : List Source → List Source
  | [] => []
  | s :: rest => { s with sid := "S" ++ toString n } :: assignSidsFrom (n + 1) rest

def assignSids (sources : List Source) : List Source := assignSidsFrom 1 sources

/-- `retrieve` (src/retrieve.py lines 142-225): union candidates, early empty
return, fuse, phrase-boost, stable sort, diversity filter, trim to `k`,
assign sequence identifiers. -/
def retrieve (inp : RetrieveInput) : List Source :=
  if candidates inp = [] then []
  else assignSids ((applyDiversity (rankedSources inp) MAX_PER_SCENE).take inp.k)

/-! ## `load_index` (src/index.py lines 113-140)

The three artifact files are modelled by `Option` contents: `bm25.pkl` by its
`corpus_tokens` list (the pickled BM25 object is opaque and row-aligned with
it), `embeddings.npy` by a row list, `meta.pkl` by the metadata list.
`load_index` checks, in order, that each of the three paths exists, printing
an error naming the path and the remediation and raising `SystemExit(2)` on
the first missing one; then it loads and returns all three.  No other
validation is performed. -/

structure LoadError where
  message : String
  exitCode : ℕ
deriving DecidableEq

def bm25PathName : String := "index/bm25.pkl"

def embPathName : String := "index/embeddings.npy"

def metaPathName : String := "index/meta.pkl"

def mkMissingError (p : String) : LoadError :=
  ⟨"ERROR: Index file " ++ p ++ " not found. Run: python index.py", 2⟩

def loadIndex (bm25File : Option (List (List String)))
    (embFile : Option (List (List ℚ))) (metaFile : Option (List ChunkMeta)) :
    Except LoadError (List (List String) × List (List ℚ) × List ChunkMeta) :=
  match bm25File with
  | none => .error (mkMissingError bm25PathName)
  | some corpus_tokens =>
    match embFile with
    | none => .error (mkMissingError embPathName)
    | some embeddings =>
      match metaFile with
      | none => .error (mkMissingError metaPathName)
      | some metas => .ok (corpus_tokens, embeddings, metas)

def loadOk {ε α : Type} : Except ε α → Bool
  | .ok _ => true
  | .error _ => false

instance exceptDecidableEq {ε α : Type} [DecidableEq ε] [DecidableEq α] :
    DecidableEq (Except ε α) := fun x y =>
  match x, y with
  | .ok a, .ok b =>
    if h : a = b then isTrue (by rw [h])
    else isFalse (fun hh => h (Except.ok.inj hh))
  | .ok _, .error _ => isFalse (fun hh => Except.noConfusion hh)
  | .error _, .ok _ => isFalse (fun hh => Except.noConfusion hh)
  | .error e, .error f =>
    if h : e = f then isTrue (by rw [h])
    else isFalse (fun hh => h (Except.error.inj hh))

/-! ## Spec-side definition for claim C10

`claimedPhraseC10` follows the words of claim C10 only — "the shortest
substring between the first such character and the next one" — to be compared
against `extractPhrase`, which is translated from the source regex. -/

/-- Split a character list at its first quote-like character. -/
def firstSplitQuote : List Char → Option (List Char × List Char)
  | [] => none
  | c :: rest =>
    if isQuoteChar c then some ([], rest)
    else (firstSplitQuote rest).map (fun p => (c :: p.1, p.2))

/-- Modelled from the words of claim C10: the substring strictly between the
first quote-like character of the query and the next quote-like character. -/
def claimedPhraseC10 (query : String) : Option String :=
  match firstSplitQuote query.data with
  | none => none
  | some (_, after1) =>
    match firstSplitQuote after1 with
    | none => none
    | some (between, _) => some ⟨between⟩

/-- Scaling every value of a score dict by `c` (claim C4). -/
def scaleVals (c : ℚ) (d : List (ℕ × ℚ)) : List (ℕ × ℚ) :=
  d.map (fun e => (e.1, c * e.2))

/-! ## Concrete inputs used to settle individual claims

`c2Input`: 51 chunks; row 0 is the only "Hamlet" chunk and the only one
containing the query phrase, but it has the lowest embedding similarity, so
the 50 "Macbeth" rows fill the embedding pool; BM25 scores all zero.  With
`play_filter="hamlet"` the candidate set is empty although row 0 matches the
phrase and passes the filter. -/

def c2Input : RetrieveInput :=
  { bm25Scores := List.replicate 51 0
    embSims := 0 :: List.replicate 50 1
    chunks := (List.range 51).map (fun i => if i = 0 then "hello world scene" else "zzz")
    metas := (List.range 51).map (fun i =>
      ⟨"C" ++ toString i, if i = 0 then "Hamlet" else "Macbeth", 1, i, none, none, none⟩)
    query := "hello world"
    k := 8
    play_filter := some "hamlet" }

/-- `c4Input b`: three chunks in distinct scenes, embedding similarities
`0, 1/2, 1`, lexical scores `b`, and an 11-word unquoted query so that the
phrase boost stays out of play. -/
def c4Input (b : List ℚ) : RetrieveInput :=
  { bm25Scores := b
    embSims := [0, 1/2, 1]
    chunks := ["a", "b", "c"]
    metas := [⟨"C0", "P", 1, 0, none, none, none⟩, ⟨"C1", "P", 1, 1, none, none, none⟩,
      ⟨"C2", "P", 1, 2, none, none, none⟩]
    query := "w w w w w w w w w w w"
    k := 8
    play_filter := none }

/-- `c5Input`: 51 chunks, BM25 silent, embedding pool = rows 1..50 (row 0 has
the lowest similarity), rows 0 and 50 both contain the query phrase.  Row 50
is the candidate-set minimum in both signals (fused score 0), so after the
boost rows 50 and 0 are tied at fused score 1, with the boost-added row 0
appended after signal candidate row 50 in the fused dict. -/
def c5Input : RetrieveInput :=
  { bm25Scores := List.replicate 51 0
    embSims := (List.range 51).map (fun i => if i = 0 then 0 else 100 - (i : ℚ))
    chunks := (List.range 51).map (fun i =>
      if i = 0 then "hello world a" else if i = 50 then "hello world b" else "zzz")
    metas := (List.range 51).map (fun i => ⟨"C" ++ toString i, "P", 1, i, none, none, none⟩)
    query := "hello world"
    k := 8
    play_filter := none }

/-- `c1Input`: a two-chunk instance on which every hypothesis of the
phrase-boost dominance claim holds concretely. -/
def c1Input : RetrieveInput :=
  { bm25Scores := [2, 1]
    embSims := [1, 0]
    chunks := ["hello world yes", "nothing here"]
    metas := [⟨"C0", "P", 1, 0, none, none, none⟩, ⟨"C1", "P", 1, 1, none, none, none⟩]
    query := "hello world"
    k := 8
    play_filter := none }

/-! # Helper lemmas -/

/-! ## Association-list lemmas -/

theorem alistGetD_map_index (g : ℕ → ℚ) (cands : List ℕ) (j : ℕ) (w : ℚ) :
    alistGetD (cands.map (fun i => (i, g i))) j w = if j ∈ cands then g j else w := by
  induction cands with
  | nil => simp [alistGetD]
  | cons a l ih =>
    by_cases h : a = j
    · subst h; simp [alistGetD]
    · have h' : j ≠ a := fun hh => h hh.symm
      simp [alistGetD, h, h', ih, List.mem_cons]

theorem alistGetD_not_has (d : List (ℕ × ℚ)) (i : ℕ) (v : ℚ)
    (h : alistHas d i = false) : alistGetD d i v = v := by
  induction d with
  | nil => rfl
  | cons e rest ih =>
    simp only [alistHas, List.any_cons, Bool.or_eq_false_iff, beq_eq_false_iff_ne] at h
    simp only [alistGetD, h.1, if_false]
    exact ih (by simp [alistHas, h.2])

theorem alistGetD_mem_vals (d : List (ℕ × ℚ)) (i : ℕ)
    (h : alistHas d i = true) : alistGetD d i 0 ∈ d.map (fun e => e.2) := by
  induction d with
  | nil => simp [alistHas] at h
  | cons e rest ih =>
    by_cases he : e.1 = i
    · simp [alistGetD, he]
    · simp only [alistHas, List.any_cons, Bool.or_eq_true_iff, beq_iff_eq] at h
      rcases h with h | h
    
      · exact absurd h he
      · simp only [alistGetD, he, if_false, List.map_cons, List.mem_cons]
        exact Or.inr (ih (by simpa [alistHas] using h))

theorem alistGetD_entry (d : List (ℕ × ℚ)) (i : ℕ) (s : ℚ)
    (hmem : (i, s) ∈ d) (hnd : (d.map Prod.fst).Nodup) : alistGetD d i 0 = s := by
  induction d with
  | nil => simp at hmem
  | cons e rest ih =>
    simp only [List.map_cons, List.nodup_cons] at hnd
    rcases List.mem_cons.mp hmem with h | h
    · subst h; simp [alistGetD]
    · have hne : e.1 ≠ i := by
        intro hEq
        exact hnd.1 (hEq ▸ (List.mem_map.mpr ⟨(i, s), h, rfl⟩))
      simp only [alistGetD, hne, if_false]
      exact ih h hnd.2

theorem alistGetD_append_left (d₁ d₂ : List (ℕ × ℚ)) (i : ℕ) (v : ℚ)
    (h : alistHas d₁ i = true) : alistGetD (d₁ ++ d₂) i v = alistGetD d₁ i v := by
  induction d₁ with
  | nil => simp [alistHas] at h
  | cons e rest ih =>
    by_cases he : e.1 = i
    · simp [alistGetD, he]
    · simp only [alistHas, List.any_cons, Bool.or_eq_true_iff, beq_iff_eq] at h
      rcases h with h | h
      · exact absurd h he
      · simp only [List.cons_append, alistGetD, he, if_false]
        exact ih (by simpa [alistHas] using h)

theorem alistGetD_append_right (d₁ d₂ : List (ℕ × ℚ)) (i : ℕ) (v : ℚ)
    (h : alistHas d₁ i = false) : alistGetD (d₁ ++ d₂) i v = alistGetD d₂ i v := by
  induction d₁ with
  | nil => rfl
  | cons e rest ih =>
    simp only [alistHas, List.any_cons, Bool.or_eq_false_iff, beq_eq_false_iff_ne] at h
    simp only [List.cons_append, alistGetD, h.1, if_false]
    exact ih (by simp [alistHas, h.2])

theorem alistHas_iff_mem_keys (d : List (ℕ × ℚ)) (i : ℕ) :
    alistHas d i = true ↔ i ∈ d.map Prod.fst := by
  simp [alistHas, List.any_eq_true, List.mem_map]

theorem alistSet_keys (d : List (ℕ × ℚ)) (i : ℕ) (v : ℚ) :
    (alistSet d i v).map Prod.fst =
      if alistHas d i then d.map Prod.fst else d.map Prod.fst ++ [i] := by
  unfold alistSet
  by_cases h : alistHas d i = true
  · simp only [h, if_true, List.map_map]
    congr 1
    funext e
    by_cases he : e.1 = i <;> simp [he, Function.comp]
  · simp [h]

theorem alistGetD_mapUpdate_self (d : List (ℕ × ℚ)) (i : ℕ) (v w : ℚ)
    (h : alistHas d i = true) :
    alistGetD (d.map (fun e => if e.1 == i then (i, v) else e)) i w = v := by
  simp only [beq_iff_eq]
  induction d with
  | nil => simp [alistHas] at h
  | cons e rest ih =>
    by_cases he : e.1 = i
    · rw [List.map_cons, if_pos he]
      simp [alistGetD]
    · have h' : alistHas rest i = true := by
        simp only [alistHas, List.any_cons, Bool.or_eq_true_iff, beq_iff_eq] at h
        rcases h with h | h
        · exact absurd h he
        · simpa [alistHas] using h
      rw [List.map_cons, if_neg he]
      simp only [alistGetD, he, if_false]
      exact ih h'

theorem alistGetD_mapUpdate_ne (d : List (ℕ × ℚ)) (i j : ℕ) (v w : ℚ) (hne : j ≠ i) :
    alistGetD (d.map (fun e => if e.1 == i then (i, v) else e)) j w = alistGetD d j w := by
  simp only [beq_iff_eq]
  induction d with
  | nil => rfl
  | cons e rest ih =>
    by_cases he : e.1 = i
    · have h1 : ¬ e.1 = j := by rw [he]; exact fun hh => hne hh.symm
      have h2 : ¬ i = j := fun hh => hne hh.symm
      rw [List.map_cons, if_pos he]
      simp only [alistGetD, h1, h2, if_false]
      exact ih
    · rw [List.map_cons, if_neg he]
      by_cases hej : e.1 = j
      · simp only [alistGetD, hej, if_true]
      · simp only [alistGetD, hej, if_false]
        exact ih

theorem alistGetD_set_self (d : List (ℕ × ℚ)) (i : ℕ) (v w : ℚ) :
    alistGetD (alistSet d i v) i w = v := by
  unfold alistSet
  by_cases h : alistHas d i = true
  · simp only [h, if_true]
    exact alistGetD_mapUpdate_self d i v w h
  · simp only [h]
    rw [if_neg (by simp [h])]
    rw [alistGetD_append_right d [(i, v)] i w (by simpa using h)]
    simp [alistGetD]

theorem alistGetD_set_ne (d : List (ℕ × ℚ)) (i j : ℕ) (v w : ℚ) (hne : j ≠ i) :
    alistGetD (alistSet d i v) j w = alistGetD d j w := by
  unfold alistSet
  by_cases h : alistHas d i = true
  · simp only [h, if_true]
    exact alistGetD_mapUpdate_ne d i j v w hne
  · simp only [h]
    rw [if_neg (by simp [h])]
    by_cases hj : alistHas d j = true
    · exact alistGetD_append_left d [(i, v)] j w hj
    · rw [alistGetD_append_right d [(i, v)] j w (by simpa using hj)]
      rw [alistGetD_not_has d j w (by simpa using hj)]
      simp only [alistGetD]
      rw [if_neg (fun hh : i = j => hne hh.symm)]

theorem contains_eq_true_iff_mem (l : List ℕ) (i : ℕ) :
    l.contains i = true ↔ i ∈ l := by
  simp [List.contains, List.elem_iff]

theorem applyBoosts_getD_not_mem (bs : List (ℕ × ℚ)) (f : List (ℕ × ℚ)) (i : ℕ)
    (h : i ∉ bs.map Prod.fst) :
    alistGetD (applyBoosts f bs) i 0 = alistGetD f i 0 := by
  induction bs generalizing f with
  | nil => rfl
  | cons e rest ih =>
    simp only [List.map_cons, List.mem_cons, not_or] at h
    show alistGetD (applyBoosts (alistSet f e.1 (alistGetD f e.1 0 + e.2)) rest) i 0 = _
    rw [ih _ h.2]
    exact alistGetD_set_ne f e.1 i _ 0 h.1

theorem applyBoosts_getD_mem (bs : List (ℕ × ℚ)) (f : List (ℕ × ℚ)) (i : ℕ) (b : ℚ)
    (hnd : (bs.map Prod.fst).Nodup) (hmem : (i, b) ∈ bs) :
    alistGetD (applyBoosts f bs) i 0 = alistGetD f i 0 + b := by
  induction bs generalizing f with
  | nil => simp at hmem
  | cons e rest ih =>
    simp only [List.map_cons, List.nodup_cons] at hnd
    show alistGetD (applyBoosts (alistSet f e.1 (alistGetD f e.1 0 + e.2)) rest) i 0 = _
    rcases List.mem_cons.mp hmem with h | h
    · subst h
      rw [applyBoosts_getD_not_mem rest _ i hnd.1]
      exact alistGetD_set_self f i _ 0
    · have hi : i ∈ rest.map Prod.fst := List.mem_map.mpr ⟨(i, b), h, rfl⟩
      have hne : i ≠ e.1 := fun hh => hnd.1 (hh ▸ hi)
      rw [ih _ hnd.2 h]
      rw [alistGetD_set_ne f e.1 i _ 0 hne]

theorem applyBoosts_keys (bs : List (ℕ × ℚ)) (f : List (ℕ × ℚ))
    (hnd : (bs.map Prod.fst).Nodup) :
    (applyBoosts f bs).map Prod.fst =
      f.map Prod.fst
        ++ (bs.map Prod.fst).filter (fun i => !(f.map Prod.fst).contains i) := by
  induction bs generalizing f with
  | nil => simp [applyBoosts]
  | cons e rest ih =>
    simp only [List.map_cons, List.nodup_cons] at hnd
    show (applyBoosts (alistSet f e.1 (alistGetD f e.1 0 + e.2)) rest).map Prod.fst = _
    rw [ih _ hnd.2]
    rw [alistSet_keys]
    simp only [List.map_cons]
    by_cases h : alistHas f e.1 = true
    · have hc : (f.map Prod.fst).contains e.1 = true := by
        rw [contains_eq_true_iff_mem]
        exact (alistHas_iff_mem_keys f e.1).mp h
      rw [if_pos h]
      rw [List.filter_cons_of_neg (by simp only [hc]; decide)]
    · have hm : e.1 ∉ f.map Prod.fst := fun hh => h ((alistHas_iff_mem_keys f e.1).mpr hh)
      have hc : (f.map Prod.fst).contains e.1 = false := by
        rw [Bool.eq_false_iff]
        intro hh
        exact hm ((contains_eq_true_iff_mem _ _).mp hh)
      rw [if_neg h]
      rw [List.filter_cons_of_pos (by simp only [hc]; decide)]
      have hfilters :
          (rest.map Prod.fst).filter
              (fun i => !((f.map Prod.fst ++ [e.1]).contains i))
            = (rest.map Prod.fst).filter (fun i => !(f.map Prod.fst).contains i) := by
        apply List.filter_congr
        intro a ha
        have hane : ¬ (a = e.1) := fun hh => hnd.1 (hh ▸ ha)
        simp [contains_eq_true_iff_mem, List.mem_append, hane]
      rw [hfilters]
      simp [List.append_assoc]

theorem applyBoosts_keys_nodup (bs : List (ℕ × ℚ)) (f : List (ℕ × ℚ))
    (hndb : (bs.map Prod.fst).Nodup) (hndf : (f.map Prod.fst).Nodup) :
    ((applyBoosts f bs).map Prod.fst).Nodup := by
  rw [applyBoosts_keys bs f hndb]
  apply List.Nodup.append hndf (hndb.filter _)
  intro a haf hab
  have hpa := List.of_mem_filter hab
  rw [Bool.not_eq_eq_eq_not, Bool.not_true, Bool.eq_false_iff] at hpa
  exact hpa ((contains_eq_true_iff_mem _ _).mpr haf)

/-! ## Minimum / maximum over value lists -/

theorem foldl_min_le_init (l : List ℚ) (a : ℚ) : l.foldl min a ≤ a := by
  induction l generalizing a with
  | nil => exact le_refl a
  | cons x xs ih => exact le_trans (ih (min a x)) (min_le_left a x)

theorem foldl_min_le_mem (l : List ℚ) (a : ℚ) (x : ℚ) (h : x ∈ l) :
    l.foldl min a ≤ x := by
  induction l generalizing a with
  | nil => simp at h
  | cons y ys ih =>
    rcases List.mem_cons.mp h with h | h
    · subst h
      exact le_trans (foldl_min_le_init ys (min a x)) (min_le_right a x)
    · exact ih (min a y) h

theorem listMin_le (l : List ℚ) (x : ℚ) (h : x ∈ l) : listMin l ≤ x := by
  cases l with
  | nil => simp at h
  | cons y ys =>
    rcases List.mem_cons.mp h with h | h
    · subst h; exact foldl_min_le_init ys x
    · exact foldl_min_le_mem ys y x h

theorem init_le_foldl_max (l : List ℚ) (a : ℚ) : a ≤ l.foldl max a := by
  induction l generalizing a with
  | nil => exact le_refl a
  | cons x xs ih => exact le_trans (le_max_left a x) (ih (max a x))

theorem mem_le_foldl_max (l : List ℚ) (a : ℚ) (x : ℚ) (h : x ∈ l) :
    x ≤ l.foldl max a := by
  induction l generalizing a with
  | nil => simp at h
  | cons y ys ih =>
    rcases List.mem_cons.mp h with h | h
    · subst h
      exact le_trans (le_max_right a x) (init_le_foldl_max ys (max a x))
    · exact ih (max a y) h

theorem le_listMax (l : List ℚ) (x : ℚ) (h : x ∈ l) : x ≤ listMax l := by
  cases l with
  | nil => simp at h
  | cons y ys =>
    rcases List.mem_cons.mp h with h | h
    · subst h; exact init_le_foldl_max ys x
    · exact mem_le_foldl_max ys y x h

/-! ## Bounds for the normalised and fused scores -/

theorem alistGetD_mapVals_cases (g : ℚ → ℚ) (d : List (ℕ × ℚ)) (i : ℕ) :
    alistGetD (d.map (fun e => (e.1, g e.2))) i 0 = 0 ∨
      ∃ s, s ∈ d.map (fun e => e.2) ∧
        alistGetD (d.map (fun e => (e.1, g e.2))) i 0 = g s := by
  induction d with
  | nil => left; rfl
  | cons e rest ih =>
    by_cases he : e.1 = i
    · right
      exact ⟨e.2, by simp, by simp [alistGetD, he]⟩
    · rcases ih with h | ⟨s, hs, hv⟩
      · left; simpa [alistGetD, he] using h
      · right; exact ⟨s, by simp [hs], by simpa [alistGetD, he] using hv⟩

theorem minMaxNormalise_getD_bounds (d : List (ℕ × ℚ)) (eps : ℚ) (i : ℕ)
    (heps : 0 < eps) :
    0 ≤ alistGetD (minMaxNormalise d eps) i 0 ∧
      alistGetD (minMaxNormalise d eps) i 0 < 1 := by
  cases d with
  | nil => constructor <;> norm_num [minMaxNormalise, alistGetD]
  | cons x xs =>
    have hd : minMaxNormalise (x :: xs) eps =
        (x :: xs).map (fun e =>
          (e.1, (e.2 - listMin ((x :: xs).map (fun e => e.2)))
            / (listMax ((x :: xs).map (fun e => e.2))
                - listMin ((x :: xs).map (fun e => e.2)) + eps))) := rfl
    rw [hd]
    set vals := (x :: xs).map (fun e => e.2) with hvals
    set lo := listMin vals with hlo
    set hi := listMax vals with hhi
    have hmem : x.2 ∈ vals := by simp [hvals]
    have hlohi : lo ≤ hi := le_trans (listMin_le vals x.2 hmem) (le_listMax vals x.2 hmem)
    have hrng : 0 < hi - lo + eps := by linarith
    rcases alistGetD_mapVals_cases (fun s => (s - lo) / (hi - lo + eps)) (x :: xs) i with
      h | ⟨s, hs, hv⟩
    · rw [h]; exact ⟨le_refl 0, by norm_num⟩
    · rw [hv]
      have hls : lo ≤ s := listMin_le vals s hs
      have hsh : s ≤ hi := le_listMax vals s hs
      constructor
      · exact div_nonneg (by linarith) (le_of_lt hrng)
      · rw [div_lt_one hrng]; linarith

theorem fuseScores_getD_bounds (bPool ePool : List (ℕ × ℚ)) (cands : List ℕ)
    (eps : ℚ) (i : ℕ) (heps : 0 < eps) :
    0 ≤ alistGetD (fuseScores bPool ePool cands eps) i 0 ∧
      alistGetD (fuseScores bPool ePool cands eps) i 0 < 1 := by
  have hd : fuseScores bPool ePool cands eps =
      cands.map (fun j =>
        (j, BM25_WEIGHT * alistGetD (minMaxNormalise (candScores bPool cands) eps) j 0
          + EMBED_WEIGHT * alistGetD (minMaxNormalise (candScores ePool cands) eps) j 0)) :=
    rfl
  rw [hd, alistGetD_map_index]
  by_cases h : i ∈ cands
  · rw [if_pos h]
    obtain ⟨hb0, hb1⟩ := minMaxNormalise_getD_bounds (candScores bPool cands) eps i heps
    obtain ⟨he0, he1⟩ := minMaxNormalise_getD_bounds (candScores ePool cands) eps i heps
    constructor
    · have h1 : (0:ℚ) ≤ BM25_WEIGHT := by norm_num [BM25_WEIGHT]
      have h2 : (0:ℚ) ≤ EMBED_WEIGHT := by norm_num [EMBED_WEIGHT]
      exact add_nonneg (mul_nonneg h1 hb0) (mul_nonneg h2 he0)
    · have hB : BM25_WEIGHT = 4 / 10 := rfl
      have hE : EMBED_WEIGHT = 6 / 10 := rfl
      rw [hB, hE]
      nlinarith
  · rw [if_neg h]
    exact ⟨le_refl 0, by norm_num⟩

/-! ## Stable descending sort: permutation, sortedness, stability -/

theorem insertDescBy_perm {α : Type} (key : α → ℚ) (x : α) (l : List α) :
    (insertDescBy key x l).Perm (x :: l) := by
  induction l with
  | nil => exact List.Perm.refl _
  | cons y ys ih =>
    by_cases h : key y ≤ key x
    · simp only [insertDescBy, if_pos h]
      exact List.Perm.refl _
    · simp only [insertDescBy, if_neg h]
      exact List.Perm.trans (ih.cons y) (List.Perm.swap x y ys)

theorem sortDescBy_perm {α : Type} (key : α → ℚ) (l : List α) :
    (sortDescBy key l).Perm l := by
  induction l with
  | nil => exact List.Perm.refl _
  | cons x xs ih =>
    show (insertDescBy key x (sortDescBy key xs)).Perm (x :: xs)
    exact List.Perm.trans (insertDescBy_perm key x _) (ih.cons x)

theorem insertDescBy_pairwise {α : Type} (key : α → ℚ) (x : α) (l : List α)
    (h : l.Pairwise (fun a b => key b ≤ key a)) :
    (insertDescBy key x l).Pairwise (fun a b => key b ≤ key a) := by
  induction l with
  | nil => simp [insertDescBy]
  | cons y ys ih =>
    obtain ⟨hy, hys⟩ := List.pairwise_cons.mp h
    by_cases hc : key y ≤ key x
    · simp only [insertDescBy, if_pos hc]
      apply List.pairwise_cons.mpr
      refine ⟨?_, h⟩
      intro b hb
      rcases List.mem_cons.mp hb with hb | hb
      · subst hb; exact hc
      · exact le_trans (hy b hb) hc
    · simp only [insertDescBy, if_neg hc]
      apply List.pairwise_cons.mpr
      refine ⟨?_, ih hys⟩
      intro b hb
      have hb' : b ∈ x :: ys := (insertDescBy_perm key x ys).mem_iff.mp hb
      rcases List.mem_cons.mp hb' with hb' | hb'
      · subst hb'; exact le_of_lt (lt_of_not_le hc)
      · exact hy b hb'

theorem sortDescBy_pairwise {α : Type} (key : α → ℚ) (l : List α) :
    (sortDescBy key l).Pairwise (fun a b => key b ≤ key a) := by
  induction l with
  | nil => simp [sortDescBy]
  | cons x xs ih => exact insertDescBy_pairwise key x _ ih

theorem insertDescBy_filter_val {α : Type} (key : α → ℚ) (q : ℚ) (x : α) (l : List α) :
    (insertDescBy key x l).filter (fun a => decide (key a = q)) =
      if key x = q then x :: l.filter (fun a => decide (key a = q))
      else l.filter (fun a => decide (key a = q)) := by
  induction l with
  | nil =>
    by_cases hx : key x = q
    · simp [insertDescBy, hx]
    · simp [insertDescBy, hx]
  | cons y ys ih =>
    by_cases hc : key y ≤ key x
    · simp only [insertDescBy, if_pos hc]
      by_cases hx : key x = q
      · simp [List.filter_cons, hx]
      · simp [List.filter_cons, hx]
    · simp only [insertDescBy, if_neg hc]
      have hxy : key x < key y := lt_of_not_le hc
      by_cases hx : key x = q
      · have hy : ¬ (key y = q) := by
          intro hh
          rw [hh, hx] at hxy
          exact lt_irrefl q hxy
        rw [List.filter_cons_of_neg (by simp [hy]), ih, if_pos hx,
          List.filter_cons_of_neg (by simp [hy]), if_pos hx]
      · by_cases hy : key y = q
        · rw [List.filter_cons_of_pos (by simp [hy]), ih, if_neg hx,
            List.filter_cons_of_pos (by simp [hy]), if_neg hx]
        · rw [List.filter_cons_of_neg (by simp [hy]), ih, if_neg hx,
            List.filter_cons_of_neg (by simp [hy]), if_neg hx]

theorem sortDescBy_filter_val {α : Type} (key : α → ℚ) (q : ℚ) (l : List α) :
    (sortDescBy key l).filter (fun a => decide (key a = q)) =
      l.filter (fun a => decide (key a = q)) := by
  induction l with
  | nil => rfl
  | cons x xs ih =>
    show (insertDescBy key x (sortDescBy key xs)).filter _ = _
    rw [insertDescBy_filter_val, ih]
    by_cases hx : key x = q
    · rw [if_pos hx, List.filter_cons_of_pos (by simp [hx])]
    · rw [if_neg hx, List.filter_cons_of_neg (by simp [hx])]

/-! ## takeWhile / dropWhile facts used for the boost-dominance split -/

theorem mem_takeWhile_holds {α : Type} (p : α → Bool) (l : List α) :
    ∀ e ∈ l.takeWhile p, p e = true := by
  induction l with
  | nil => simp
  | cons x xs ih =>
    intro e he
    by_cases hx : p x = true
    · rw [List.takeWhile_cons_of_pos hx] at he
      rcases List.mem_cons.mp he with he | he
      · subst he; exact hx
      · exact ih e he
    · rw [List.takeWhile_cons_of_neg hx] at he
      simp at he

theorem dropWhile_lt_of_sorted {α : Type} (key : α → ℚ) (t : ℚ) (l : List α)
    (h : l.Pairwise (fun a b => key b ≤ key a)) :
    ∀ e ∈ l.dropWhile (fun a => decide (t ≤ key a)), key e < t := by
  induction l with
  | nil => simp
  | cons x xs ih =>
    obtain ⟨hx, hxs⟩ := List.pairwise_cons.mp h
    by_cases hc : t ≤ key x
    · rw [List.dropWhile_cons_of_pos (by simp [hc])]
      exact ih hxs
    · rw [List.dropWhile_cons_of_neg (by simp [hc])]
      intro e he
      rcases List.mem_cons.mp he with he | he
      · subst he; exact lt_of_not_le hc
      · exact lt_of_le_of_lt (hx e he) (lt_of_not_le hc)

/-! ## Diversity filter lemmas -/

theorem applyDiversityGo_sublist (n : ℕ) (l : List Source)
    (counts : String × ℕ × ℕ → ℕ) : (applyDiversityGo n counts l).Sublist l := by
  induction l generalizing counts with
  | nil => exact List.Sublist.refl []
  | cons item rest ih =>
    show (if counts (sourceKey item) + 1 ≤ n
        then item :: applyDiversityGo n
          (fun k => if k = sourceKey item then counts (sourceKey item) + 1 else counts k) rest
        else applyDiversityGo n
          (fun k => if k = sourceKey item then counts (sourceKey item) + 1 else counts k)
          rest).Sublist (item :: rest)
    by_cases hc : counts (sourceKey item) + 1 ≤ n
    · rw [if_pos hc]
      exact List.Sublist.cons₂ item (ih _)
    · rw [if_neg hc]
      exact List.Sublist.cons item (ih _)

theorem applyDiversityGo_filter_key (n : ℕ) (l : List Source)
    (counts : String × ℕ × ℕ → ℕ) (key : String × ℕ × ℕ) :
    (applyDiversityGo n counts l).filter (fun s => decide (sourceKey s = key)) =
      (l.filter (fun s => decide (sourceKey s = key))).take (n - counts key) := by
  induction l generalizing counts with
  | nil => simp [applyDiversityGo]
  | cons item rest ih =>
    show (if counts (sourceKey item) + 1 ≤ n
        then item :: applyDiversityGo n
          (fun k => if k = sourceKey item then counts (sourceKey item) + 1 else counts k) rest
        else applyDiversityGo n
          (fun k => if k = sourceKey item then counts (sourceKey item) + 1 else counts k)
          rest).filter (fun s => decide (sourceKey s = key)) = _
    by_cases hk : sourceKey item = key
    · subst hk
      by_cases hc : counts (sourceKey item) + 1 ≤ n
      · rw [if_pos hc, List.filter_cons_of_pos (by simp)]
        rw [ih]
        simp only [eq_self_iff_true, if_true]
        rw [List.filter_cons_of_pos (by simp)]
        have harith : n - counts (sourceKey item) = (n - (counts (sourceKey item) + 1)) + 1 := by
          omega
        rw [harith, List.take_succ_cons]
      · rw [if_neg hc, ih]
        simp only [eq_self_iff_true, if_true]
        rw [List.filter_cons_of_pos (by simp)]
        have h1 : n - (counts (sourceKey item) + 1) = 0 := by omega
        have h2 : n - counts (sourceKey item) = 0 := by omega
        rw [h1, h2]
        simp
    · have hkne : ¬ (key = sourceKey item) := fun hh => hk hh.symm
      by_cases hc : counts (sourceKey item) + 1 ≤ n
      · rw [if_pos hc, List.filter_cons_of_neg (by simp [hk]), ih]
        rw [if_neg hkne]
        rw [List.filter_cons_of_neg (by simp [hk])]
      · rw [if_neg hc, ih]
        rw [if_neg hkne]
        rw [List.filter_cons_of_neg (by simp [hk])]

theorem applyDiversity_sublist (l : List Source) (n : ℕ) :
    (applyDiversity l n).Sublist l :=
  applyDiversityGo_sublist n l (fun _ => 0)

theorem applyDiversity_filter_key (l : List Source) (n : ℕ) (key : String × ℕ × ℕ) :
    (applyDiversity l n).filter (fun s => decide (sourceKey s = key)) =
      (l.filter (fun s => decide (sourceKey s = key))).take n := by
  have h := applyDiversityGo_filter_key n l (fun _ => 0) key
  simpa using h

/-! ## Sequence identifier lemmas -/

theorem assignSidsFrom_length (n : ℕ) (l : List Source) :
    (assignSidsFrom n l).length = l.length := by
  induction l generalizing n with
  | nil => rfl
  | cons s rest ih => simp [assignSidsFrom, ih]

theorem assignSidsFrom_map_sid (l : List Source) (n : ℕ) :
    (assignSidsFrom n l).map (fun s => s.sid) =
      (List.range' n l.length).map (fun i => "S" ++ toString i) := by
  induction l generalizing n with
  | nil => rfl
  | cons s rest ih =>
    show ("S" ++ toString n) :: (assignSidsFrom (n + 1) rest).map (fun s => s.sid) = _
    rw [ih, List.length_cons, List.range'_succ]
    rfl

theorem assignSids_map_sid (l : List Source) :
    (assignSids l).map (fun s => s.sid) =
      (List.range' 1 l.length).map (fun i => "S" ++ toString i) :=
  assignSidsFrom_map_sid l 1

/-! ## Regex-search lemmas (phrase extraction) -/

theorem closeScan_through (mid : List Char) (acc : List Char) (c₂ : Char)
    (back : List Char) (hmid : ∀ c ∈ mid, isQuoteChar c = false ∧ c ≠ '\n')
    (hq : isQuoteChar c₂ = true) :
    closeScan acc (mid ++ c₂ :: back) = some (acc.reverse ++ mid) := by
  induction mid generalizing acc with
  | nil => simp [closeScan, hq]
  | cons m ms ih =>
    obtain ⟨hmq, hmn⟩ := hmid m (by simp)
    show closeScan acc (m :: (ms ++ c₂ :: back)) = _
    simp only [closeScan, hmq, Bool.false_eq_true, if_false, hmn]
    rw [ih (m :: acc) (fun c hc => hmid c (by simp [hc]))]
    simp [List.append_assoc]

theorem reSearchQuoted_append_no_quote (front l : List Char)
    (h : ∀ c ∈ front, isQuoteChar c = false) :
    reSearchQuoted (front ++ l) = reSearchQuoted l := by
  induction front with
  | nil => rfl
  | cons c rest ih =>
    have hc := h c (by simp)
    show reSearchQuoted (c :: (rest ++ l)) = _
    simp only [reSearchQuoted, hc, Bool.false_eq_true, if_false]
    exact ih (fun c hc => h c (by simp [hc]))

/-! ## Boost-list shape lemmas -/

theorem filterMap_boost_keys (l : List ℕ) (P : ℕ → Bool) :
    (l.filterMap (fun idx => if P idx then some (idx, (1:ℚ)) else none)).map Prod.fst =
      l.filter P := by
  induction l with
  | nil => rfl
  | cons a as ih =>
    by_cases h : P a = true
    · simp only [List.filterMap_cons, h, if_true, List.map_cons, ih,
        List.filter_cons_of_pos h]
    · simp only [List.filterMap_cons, h, Bool.false_eq_true, if_false, ih,
        List.filter_cons_of_neg h]

theorem filterMap_boost_val (l : List ℕ) (P : ℕ → Bool) (i : ℕ) (b : ℚ)
    (h : (i, b) ∈ l.filterMap (fun idx => if P idx then some (idx, (1:ℚ)) else none)) :
    b = 1 := by
  obtain ⟨a, _, hfa⟩ := List.mem_filterMap.mp h
  by_cases hP : P a = true
  · rw [if_pos hP] at hfa
    exact (Prod.mk.injEq _ _ _ _ ▸ (Option.some_inj.mp hfa)).2.symm ▸ rfl
  · rw [if_neg hP] at hfa
    exact absurd hfa (by simp)

theorem filterMap_boost_mem (l : List ℕ) (P : ℕ → Bool) (i : ℕ)
    (hi : i ∈ l) (hP : P i = true) :
    (i, (1:ℚ)) ∈ l.filterMap (fun idx => if P idx then some (idx, (1:ℚ)) else none) :=
  List.mem_filterMap.mpr ⟨i, hi, by rw [if_pos hP]⟩

/-! ## Retrieve-pipeline structural lemmas -/

theorem map_fst_map_pair (g : ℕ → ℚ) (l : List ℕ) :
    (l.map (fun i => (i, g i))).map Prod.fst = l := by
  induction l with
  | nil => rfl
  | cons a as ih => simp [ih]

theorem candidates_nodup (inp : RetrieveInput) : (candidates inp).Nodup :=
  ((List.nodup_range _).filter _).filter _

theorem candidates_pairwise_lt (inp : RetrieveInput) :
    (candidates inp).Pairwise (· < ·) :=
  ((List.pairwise_lt_range _).filter _).filter _

theorem fusedBase_keys (inp : RetrieveInput) :
    (fusedBase inp).map Prod.fst = candidates inp := by
  have hd : fusedBase inp =
      (candidates inp).map (fun j =>
        (j, BM25_WEIGHT
            * alistGetD (minMaxNormalise (candScores (bm25Pool inp) (candidates inp)) EPS) j 0
          + EMBED_WEIGHT
            * alistGetD (minMaxNormalise (candScores (embPool inp) (candidates inp)) EPS) j 0)) :=
    rfl
  rw [hd]
  exact map_fst_map_pair _ _

theorem mem_argsortDesc_lt (scores : List ℚ) (i : ℕ) (h : i ∈ argsortDesc scores) :
    i < scores.length :=
  List.mem_range.mp ((sortDescBy_perm _ _).mem_iff.mp h)

theorem bm25Search_keys_lt (scores : List ℚ) (k : ℕ) (i : ℕ)
    (h : i ∈ (bm25Search scores k).map Prod.fst) : i < scores.length := by
  obtain ⟨e, he, hei⟩ := List.mem_map.mp h
  obtain ⟨a, ha, hfa⟩ := List.mem_filterMap.mp he
  have ha' : a ∈ argsortDesc scores := List.mem_of_mem_take ha
  by_cases hP : 0 < scores.getD a 0
  · rw [if_pos hP] at hfa
    have : e = (a, scores.getD a 0) := (Option.some_inj.mp hfa).symm
    rw [this] at hei
    exact hei ▸ mem_argsortDesc_lt scores a ha'
  · rw [if_neg hP] at hfa
    exact absurd hfa (by simp)

theorem embSearch_keys_lt (sims : List ℚ) (k : ℕ) (i : ℕ)
    (h : i ∈ (embSearch sims k).map Prod.fst) : i < sims.length := by
  obtain ⟨e, he, hei⟩ := List.mem_map.mp h
  obtain ⟨a, ha, hfa⟩ := List.mem_map.mp he
  have ha' : a ∈ argsortDesc sims := List.mem_of_mem_take ha
  have : e.1 = a := by rw [← hfa]
  rw [← hei, this]
  exact mem_argsortDesc_lt sims a ha'

theorem mem_candidates_elim (inp : RetrieveInput) (i : ℕ) (h : i ∈ candidates inp) :
    (i ∈ (bm25Pool inp).map Prod.fst ∨ i ∈ (embPool inp).map Prod.fst)
      ∧ passesFilter inp.play_filter (inp.metas.getD i defaultMeta) = true := by
  obtain ⟨h1, h2⟩ := List.mem_filter.mp h
  obtain ⟨_, h4⟩ := List.mem_filter.mp h1
  constructor
  · have h4' := h4
    rw [Bool.or_eq_true_iff] at h4'
    rcases h4' with h4' | h4'
    · exact Or.inl ((contains_eq_true_iff_mem _ _).mp h4')
    · exact Or.inr ((contains_eq_true_iff_mem _ _).mp h4')
  · exact h2

theorem mem_candidates_lt_chunks (inp : RetrieveInput) (i : ℕ)
    (hbl : inp.bm25Scores.length = inp.chunks.length)
    (hel : inp.embSims.length = inp.chunks.length)
    (h : i ∈ candidates inp) : i < inp.chunks.length := by
  rcases (mem_candidates_elim inp i h).1 with hp | hp
  · exact hbl ▸ bm25Search_keys_lt inp.bm25Scores BM25_K i hp
  · exact hel ▸ embSearch_keys_lt inp.embSims EMBED_K i hp

theorem mem_candidates_allIndices (inp : RetrieveInput) (i : ℕ)
    (hbl : inp.bm25Scores.length = inp.chunks.length)
    (hel : inp.embSims.length = inp.chunks.length)
    (h : i ∈ candidates inp) : i ∈ allIndices inp := by
  apply List.mem_filter.mpr
  exact ⟨List.mem_range.mpr (mem_candidates_lt_chunks inp i hbl hel h),
    (mem_candidates_elim inp i h).2⟩

theorem allIndices_nodup (inp : RetrieveInput) : (allIndices inp).Nodup :=
  (List.nodup_range _).filter _

/-- The boost dict under an accepted phrase: explicit `filterMap` form. -/
theorem boosts_eq_filterMap (inp : RetrieveInput) (p : String)
    (hp : phraseTarget inp.query = some p) (hlen : ¬ ((stripPunct p).length < 6)) :
    boosts inp = (allIndices inp).filterMap (fun idx =>
      if containsSeq (stripPunct p).data (stripPunct (inp.chunks.getD idx "")).data
      then some (idx, (1:ℚ)) else none) := by
  show phraseBoost (allIndices inp) inp.query inp.chunks = _
  simp only [phraseBoost, hp, hlen, if_false]

theorem boosts_keys_nodup (inp : RetrieveInput) (p : String)
    (hp : phraseTarget inp.query = some p) (hlen : ¬ ((stripPunct p).length < 6)) :
    ((boosts inp).map Prod.fst).Nodup := by
  rw [boosts_eq_filterMap inp p hp hlen, filterMap_boost_keys]
  exact (allIndices_nodup inp).filter _

theorem fusedFinal_keys_nodup (inp : RetrieveInput) (p : String)
    (hp : phraseTarget inp.query = some p) (hlen : ¬ ((stripPunct p).length < 6)) :
    ((fusedFinal inp).map Prod.fst).Nodup := by
  apply applyBoosts_keys_nodup _ _ (boosts_keys_nodup inp p hp hlen)
  rw [fusedBase_keys]
  exact candidates_nodup inp

theorem fusedBase_getD_bounds (inp : RetrieveInput) (i : ℕ) :
    0 ≤ alistGetD (fusedBase inp) i 0 ∧ alistGetD (fusedBase inp) i 0 < 1 :=
  fuseScores_getD_bounds (bm25Pool inp) (embPool inp) (candidates inp) EPS i
    (by norm_num [EPS])

theorem boosted_getD (inp : RetrieveInput) (p : String)
    (hp : phraseTarget inp.query = some p) (hlen : ¬ ((stripPunct p).length < 6))
    (i : ℕ) (hib : i ∈ (boosts inp).map Prod.fst) :
    alistGetD (fusedFinal inp) i 0 = alistGetD (fusedBase inp) i 0 + 1 := by
  obtain ⟨e, he, hei⟩ := List.mem_map.mp hib
  have hval : e.2 = 1 := by
    have he' := he
    rw [boosts_eq_filterMap inp p hp hlen] at he'
    exact filterMap_boost_val _ _ e.1 e.2 he'
  have hmem : (i, (1:ℚ)) ∈ boosts inp := by
    rw [← hei, ← hval]
    exact he
  exact applyBoosts_getD_mem (boosts inp) (fusedBase inp) i 1
    (boosts_keys_nodup inp p hp hlen) hmem

theorem unboosted_getD (inp : RetrieveInput) (i : ℕ)
    (hib : i ∉ (boosts inp).map Prod.fst) :
    alistGetD (fusedFinal inp) i 0 = alistGetD (fusedBase inp) i 0 :=
  applyBoosts_getD_not_mem _ _ _ hib

theorem rankedAList_entry_val (inp : RetrieveInput) (p : String)
    (hp : phraseTarget inp.query = some p) (hlen : ¬ ((stripPunct p).length < 6))
    (e : ℕ × ℚ) (he : e ∈ rankedAList inp) :
    e.2 = alistGetD (fusedFinal inp) e.1 0 := by
  have hmem : e ∈ fusedFinal inp := (sortDescBy_perm _ _).mem_iff.mp he
  have : (e.1, e.2) ∈ fusedFinal inp := by
    simpa using hmem
  exact (alistGetD_entry (fusedFinal inp) e.1 e.2 this
    (fusedFinal_keys_nodup inp p hp hlen)).symm

/-! # Claims -/

/-- C1: Phrase-boost dominance.  For every query whose extracted phrase passes
the minimum-length check (and aligned index artifacts, with a nonempty
candidate set), (a) every candidate whose punctuation-stripped text contains
the punctuation-stripped phrase is boosted, (b) every boosted row's final
fused score is its fused score plus exactly `1.0`, and (c) in the sorted
ranking every boosted row precedes every non-boosted row: the non-boosted
fused scores lie strictly below `BM25_WEIGHT + EMBED_WEIGHT = 1` because
min-max normalisation divides by `(max - min + eps)`. -/
theorem C1_phrase_boost_dominance (inp : RetrieveInput) (p : String)
    (hp : phraseTarget inp.query = some p)
    (hlen : 6 ≤ (stripPunct p).length)
    (hbl : inp.bm25Scores.length = inp.chunks.length)
    (hel : inp.embSims.length = inp.chunks.length)
    (hcne : candidates inp ≠ []) :
    (∀ i ∈ candidates inp,
        containsSeq (stripPunct p).data (stripPunct (inp.chunks.getD i "")).data = true →
          i ∈ (boosts inp).map Prod.fst)
    ∧ (∀ i ∈ (boosts inp).map Prod.fst,
        alistGetD (fusedFinal inp) i 0 = alistGetD (fusedBase inp) i 0 + 1)
    ∧ ∃ boostedPart unboostedPart : List ℕ,
        (rankedAList inp).map Prod.fst = boostedPart ++ unboostedPart
          ∧ (∀ i ∈ boostedPart, i ∈ (boosts inp).map Prod.fst)
          ∧ (∀ i ∈ unboostedPart, i ∉ (boosts inp).map Prod.fst) := by
  have hlen' : ¬ ((stripPunct p).length < 6) := not_lt.mpr hlen
  refine ⟨?_, ?_, ?_⟩
  · intro i hi hcont
    have hall : i ∈ allIndices inp := mem_candidates_allIndices inp i hbl hel hi
    have hmem : (i, (1:ℚ)) ∈ boosts inp := by
      rw [boosts_eq_filterMap inp p hp hlen']
      exact filterMap_boost_mem _ _ i hall hcont
    exact List.mem_map.mpr ⟨(i, 1), hmem, rfl⟩
  · intro i hib
    exact boosted_getD inp p hp hlen' i hib
  · refine ⟨((rankedAList inp).takeWhile (fun e => decide ((1:ℚ) ≤ e.2))).map Prod.fst,
      ((rankedAList inp).dropWhile (fun e => decide ((1:ℚ) ≤ e.2))).map Prod.fst,
      ?_, ?_, ?_⟩
    · rw [← List.map_append, List.takeWhile_append_dropWhile]
    · intro i him
      obtain ⟨e, he, hei⟩ := List.mem_map.mp him
      have hp1 : (1:ℚ) ≤ e.2 := by
        have := mem_takeWhile_holds (fun e => decide ((1:ℚ) ≤ e.2)) (rankedAList inp) e he
        exact of_decide_eq_true this
      have hsplit := List.takeWhile_append_dropWhile
        (fun e => decide ((1:ℚ) ≤ e.2)) (rankedAList inp)
      have hrank : e ∈ rankedAList inp := by
        rw [← hsplit]
        exact List.mem_append_left _ he
      have hval := rankedAList_entry_val inp p hp hlen' e hrank
      by_contra hnb
      rw [← hei] at hnb
      have := unboosted_getD inp e.1 hnb
      have hb := (fusedBase_getD_bounds inp e.1).2
      rw [hval, this] at hp1
      linarith
    · intro i him
      obtain ⟨e, he, hei⟩ := List.mem_map.mp him
      have hlt : e.2 < 1 := by
        have hsorted := sortDescBy_pairwise (fun e : ℕ × ℚ => e.2) (fusedFinal inp)
        exact dropWhile_lt_of_sorted (fun e : ℕ × ℚ => e.2) 1 (rankedAList inp)
          hsorted e he
      have hsplit := List.takeWhile_append_dropWhile
        (fun e => decide ((1:ℚ) ≤ e.2)) (rankedAList inp)
      have hrank : e ∈ rankedAList inp := by
        rw [← hsplit]
        exact List.mem_append_right _ he
      have hval := rankedAList_entry_val inp p hp hlen' e hrank
      intro hib
      rw [← hei] at hib
      have := boosted_getD inp p hp hlen' e.1 hib
      have hb := (fusedBase_getD_bounds inp e.1).1
      rw [hval, this] at hlt
      linarith

/-- Witness for C1 at `c1Input`: the hypotheses hold and the theorem applies. -/
theorem C1_phrase_boost_dominance_witness :
    (phraseTarget c1Input.query = some "hello world"
      ∧ 6 ≤ (stripPunct "hello world").length
      ∧ c1Input.bm25Scores.length = c1Input.chunks.length
      ∧ c1Input.embSims.length = c1Input.chunks.length
      ∧ candidates c1Input ≠ [])
    ∧ ((∀ i ∈ candidates c1Input,
          containsSeq (stripPunct "hello world").data
              (stripPunct (c1Input.chunks.getD i "")).data = true →
            i ∈ (boosts c1Input).map Prod.fst)
      ∧ (∀ i ∈ (boosts c1Input).map Prod.fst,
          alistGetD (fusedFinal c1Input) i 0 = alistGetD (fusedBase c1Input) i 0 + 1)
      ∧ ∃ boostedPart unboostedPart : List ℕ,
          (rankedAList c1Input).map Prod.fst = boostedPart ++ unboostedPart
            ∧ (∀ i ∈ boostedPart, i ∈ (boosts c1Input).map Prod.fst)
            ∧ (∀ i ∈ unboostedPart, i ∉ (boosts c1Input).map Prod.fst)) :=
  ⟨⟨by decide, by decide, by decide, by decide, by decide⟩,
    C1_phrase_boost_dominance c1Input "hello world" (by decide) (by decide) (by decide)
      (by decide) (by decide)⟩

/-- C2: Phrase-only surfacing fails in the code.  At `c2Input` the lexical
signal proposes no row, no embedding-pool row survives the work filter
(candidate set empty), yet chunk 0 passes the work filter and contains the
phrase — the phrase search over the work-filtered corpus yields exactly
`{0: 1.0}`.  The code nevertheless returns `[]`: the early return on an empty
candidate set (src/retrieve.py lines 172-173) precedes the phrase-boost step,
so the phrase-matching chunk is never surfaced, contradicting the spec. -/
theorem C2_phrase_only_surfacing_code_bug :
    bm25Search c2Input.bm25Scores BM25_K = []
    ∧ candidates c2Input = []
    ∧ phraseBoost (allIndices c2Input) c2Input.query c2Input.chunks = [(0, 1)]
    ∧ retrieve c2Input = [] :=
  ⟨by decide, by decide, by decide, by decide⟩

/-- C3 counterexample: the query "to be or not to be that is the question"
passes the phrase checks, but the boost step does NOT match the chunk
"To be, or not to be—that is the question": stripping deletes the em-dash
without inserting a space, so the chunk text normalises to
"to be or not to bethat is the question" and the substring test fails. -/
theorem C3_punct_insensitive_counterexample :
    phraseTarget "to be or not to be that is the question" =
        some "to be or not to be that is the question"
    ∧ 6 ≤ (stripPunct "to be or not to be that is the question").length
    ∧ stripPunct "To be, or not to be—that is the question" =
        "to be or not to bethat is the question"
    ∧ phraseBoost [0] "to be or not to be that is the question"
        ["To be, or not to be—that is the question"] = [] :=
  ⟨by decide, by decide, by decide, by decide⟩

/-- C3 amended: punctuation adjacent to spaces or at segment ends is
irrelevant — the same chunk matches the query "to be or not to be" — but a
dash directly between two words glues them together, so the full-question
query does not match. -/
theorem C3_punct_insensitive_amended :
    phraseBoost [0] "to be or not to be"
        ["To be, or not to be—that is the question"] = [(0, 1)]
    ∧ phraseBoost [0] "to be or not to be that is the question"
        ["To be, or not to be—that is the question"] = [] :=
  ⟨by decide, by decide⟩

/-- C4 counterexample: multiplying every raw lexical score by the positive
constant `EPS = 1e-9` changes the final ranking of `retrieve` on `c4Input`
(the epsilon guard in `_min_max_normalise` breaks exact scale-invariance). -/
theorem C4_scale_invariance_counterexample :
    (0:ℚ) < EPS
    ∧ (retrieve (c4Input [1, 0, 0])).map (fun s => s.chunk_id) = ["C2", "C0", "C1"]
    ∧ (retrieve (c4Input ([1, 0, 0].map (fun s => EPS * s)))).map (fun s => s.chunk_id)
        = ["C2", "C1", "C0"] :=
  ⟨by decide, by decide, by decide⟩

theorem alistGetD_scaleVals (c : ℚ) (d : List (ℕ × ℚ)) (i : ℕ) :
    alistGetD (scaleVals c d) i 0 = c * alistGetD d i 0 := by
  induction d with
  | nil => simp [scaleVals, alistGetD]
  | cons e rest ih =>
    by_cases he : e.1 = i
    · simp [scaleVals, alistGetD, he]
    · simpa [scaleVals, alistGetD, he] using ih

theorem candScores_scaleVals (c : ℚ) (pool : List (ℕ × ℚ)) (cands : List ℕ) :
    candScores (scaleVals c pool) cands = scaleVals c (candScores pool cands) := by
  show cands.map _ = (cands.map _).map _
  rw [List.map_map]
  apply List.map_congr_left
  intro i _
  simp [Function.comp, alistGetD_scaleVals]

theorem foldl_min_scale (c : ℚ) (hc : 0 ≤ c) (l : List ℚ) (a : ℚ) :
    (l.map (fun s => c * s)).foldl min (c * a) = c * l.foldl min a := by
  induction l generalizing a with
  | nil => rfl
  | cons x xs ih =>
    show (xs.map _).foldl min (min (c * a) (c * x)) = _
    rw [← mul_min_of_nonneg a x hc]
    exact ih (min a x)

theorem foldl_max_scale (c : ℚ) (hc : 0 ≤ c) (l : List ℚ) (a : ℚ) :
    (l.map (fun s => c * s)).foldl max (c * a) = c * l.foldl max a := by
  induction l generalizing a with
  | nil => rfl
  | cons x xs ih =>
    show (xs.map _).foldl max (max (c * a) (c * x)) = _
    rw [← mul_max_of_nonneg a x hc]
    exact ih (max a x)

theorem listMin_scale (c : ℚ) (hc : 0 ≤ c) (l : List ℚ) :
    listMin (l.map (fun s => c * s)) = c * listMin l := by
  cases l with
  | nil => simp [listMin]
  | cons x xs => exact foldl_min_scale c hc xs x

theorem listMax_scale (c : ℚ) (hc : 0 ≤ c) (l : List ℚ) :
    listMax (l.map (fun s => c * s)) = c * listMax l := by
  cases l with
  | nil => simp [listMax]
  | cons x xs => exact foldl_max_scale c hc xs x

theorem minMaxNormalise_scaleVals (c : ℚ) (hc : 0 < c) (d : List (ℕ × ℚ)) :
    minMaxNormalise (scaleVals c d) 0 = minMaxNormalise d 0 := by
  cases d with
  | nil => rfl
  | cons x xs =>
    have hvals : (scaleVals c (x :: xs)).map (fun e => e.2) =
        ((x :: xs).map (fun e => e.2)).map (fun s => c * s) := by
      show ((x :: xs).map _).map _ = _
      rw [List.map_map, List.map_map]
      rfl
    have hmm : minMaxNormalise (scaleVals c (x :: xs)) 0 =
        (scaleVals c (x :: xs)).map (fun e =>
          (e.1, (e.2 - listMin ((scaleVals c (x :: xs)).map (fun e => e.2)))
            / (listMax ((scaleVals c (x :: xs)).map (fun e => e.2))
                - listMin ((scaleVals c (x :: xs)).map (fun e => e.2)) + 0))) := rfl
    have hmm' : minMaxNormalise (x :: xs) 0 =
        (x :: xs).map (fun e =>
          (e.1, (e.2 - listMin ((x :: xs).map (fun e => e.2)))
            / (listMax ((x :: xs).map (fun e => e.2))
                - listMin ((x :: xs).map (fun e => e.2)) + 0))) := rfl
    rw [hmm, hmm', hvals, listMin_scale c (le_of_lt hc), listMax_scale c (le_of_lt hc)]
    show ((x :: xs).map _).map _ = _
    rw [List.map_map]
    apply List.map_congr_left
    intro e _
    simp only [Function.comp]
    congr 1
    rw [add_zero, add_zero]
    rw [show c * e.2 - c * listMin ((x :: xs).map (fun e => e.2)) =
        c * (e.2 - listMin ((x :: xs).map (fun e => e.2))) by ring]
    rw [show c * listMax ((x :: xs).map (fun e => e.2))
          - c * listMin ((x :: xs).map (fun e => e.2)) =
        c * (listMax ((x :: xs).map (fun e => e.2))
          - listMin ((x :: xs).map (fun e => e.2))) by ring]
    exact mul_div_mul_left _ _ (ne_of_gt hc)

/-- C4 amended: with the epsilon guard set to zero (`_min_max_normalise`'s
`eps` argument), multiplying every raw lexical candidate score by a positive
constant leaves every fused score — and hence the sorted ranking — unchanged.
With the default `eps = 1e-9` this fails (see the counterexample). -/
theorem C4_scale_invariance_amended (bPool ePool : List (ℕ × ℚ)) (cands : List ℕ)
    (c : ℚ) (hc : 0 < c) :
    fuseScores (scaleVals c bPool) ePool cands 0 = fuseScores bPool ePool cands 0
    ∧ sortDescBy (fun e => e.2) (fuseScores (scaleVals c bPool) ePool cands 0) =
        sortDescBy (fun e => e.2) (fuseScores bPool ePool cands 0) := by
  have hmain : fuseScores (scaleVals c bPool) ePool cands 0 =
      fuseScores bPool ePool cands 0 := by
    show cands.map _ = cands.map _
    apply List.map_congr_left
    intro i _
    rw [candScores_scaleVals, minMaxNormalise_scaleVals c hc]
  exact ⟨hmain, by rw [hmain]⟩

/-- Witness for the amended C4 at a concrete pool, candidate set and scale. -/
theorem C4_scale_invariance_amended_witness :
    (0:ℚ) < 2
    ∧ (fuseScores (scaleVals 2 [(0, 1), (1, 3)]) [(0, 2)] [0, 1] 0 =
          fuseScores [(0, 1), (1, 3)] [(0, 2)] [0, 1] 0
      ∧ sortDescBy (fun e => e.2) (fuseScores (scaleVals 2 [(0, 1), (1, 3)]) [(0, 2)] [0, 1] 0) =
          sortDescBy (fun e => e.2) (fuseScores [(0, 1), (1, 3)] [(0, 2)] [0, 1] 0)) :=
  ⟨by decide, C4_scale_invariance_amended [(0, 1), (1, 3)] [(0, 2)] [0, 1] 2 (by decide)⟩

set_option maxRecDepth 20000 in
/-- C5 counterexample: on `c5Input`, rows 50 and 0 end with the same fused
score `1.0`, yet `retrieve` lists row 50 *before* row 0 — equal fused scores
are not returned in ascending original row-index order.  (Row 50 is a signal
candidate whose fused score is 0 before the boost; row 0 is a phrase-only
candidate appended to the fused dict after all signal candidates.) -/
theorem C5_tie_break_counterexample :
    ((retrieve c5Input).map (fun s => (s.chunk_id, s.score))).take 2 =
        [("C50", 1), ("C0", 1)]
    ∧ (retrieve c5Input).map (fun s => s.chunk_id) =
        ["C50", "C0", "C1", "C2", "C3", "C4", "C5", "C6"] :=
  ⟨by decide, by decide⟩

theorem boosts_keys_nodup_all (inp : RetrieveInput) :
    ((boosts inp).map Prod.fst).Nodup := by
  show ((phraseBoost (allIndices inp) inp.query inp.chunks).map Prod.fst).Nodup
  cases hpt : phraseTarget inp.query with
  | none => simp [phraseBoost, hpt]
  | some p =>
    by_cases h : (stripPunct p).length < 6
    · simp [phraseBoost, hpt, h]
    · simp only [phraseBoost, hpt, h, if_false]
      rw [filterMap_boost_keys]
      exact (allIndices_nodup inp).filter _

/-- C5 amended: ties in fused score are returned in the fused-dict insertion
order, which is deterministic but not globally ascending by row index: the
sort is stable (entries with any given fused score keep their dict order),
and the fused-dict key order is the ascending candidate set followed by the
phrase-boost-added rows in ascending order. -/
theorem C5_tie_break_amended (inp : RetrieveInput) (q : ℚ) :
    (rankedAList inp).filter (fun e => decide (e.2 = q)) =
        (fusedFinal inp).filter (fun e => decide (e.2 = q))
    ∧ (fusedFinal inp).map Prod.fst =
        (fusedBase inp).map Prod.fst
          ++ ((boosts inp).map Prod.fst).filter
              (fun i => !((fusedBase inp).map Prod.fst).contains i)
    ∧ (fusedBase inp).map Prod.fst = candidates inp
    ∧ (candidates inp).Pairwise (· < ·) := by
  refine ⟨?_, ?_, fusedBase_keys inp, candidates_pairwise_lt inp⟩
  · exact sortDescBy_filter_val (fun e => e.2) q (fusedFinal inp)
  · exact applyBoosts_keys (boosts inp) (fusedBase inp) (boosts_keys_nodup_all inp)

/-- C6 counterexample: `load_index` succeeds on artifacts whose lengths are
pairwise different (1 token list, 2 embedding rows, 3 metadata records) —
nothing fails fatally, the misaligned triple is returned as-is. -/
theorem C6_length_mismatch_counterexample :
    loadIndex (some [["a"]]) (some [[1], [2]])
        (some (List.replicate 3 ⟨"C", "P", 1, 1, none, none, none⟩)) =
      .ok ([["a"]], [[1], [2]], List.replicate 3 ⟨"C", "P", 1, 1, none, none, none⟩)
    ∧ ([["a"]] : List (List String)).length = 1
    ∧ ([[1], [2]] : List (List ℚ)).length = 2
    ∧ (List.replicate 3 (⟨"C", "P", 1, 1, none, none, none⟩ : ChunkMeta)).length = 3 :=
  ⟨by decide, by decide, by decide, by decide⟩

/-- C6 amended: `load_index` validates nothing beyond the existence of the
three artifact files: it succeeds exactly when all three are present, and
then returns whatever was persisted, with no length-consistency check. -/
theorem C6_length_mismatch_amended :
    (∀ (b : Option (List (List String))) (e : Option (List (List ℚ)))
        (m : Option (List ChunkMeta)),
      loadOk (loadIndex b e m) = (b.isSome && e.isSome && m.isSome))
    ∧ (∀ (cb : List (List String)) (ce : List (List ℚ)) (cm : List ChunkMeta),
        loadIndex (some cb) (some ce) (some cm) = .ok (cb, ce, cm)) := by
  constructor
  · intro b e m
    cases b <;> cases e <;> cases m <;> rfl
  · intro cb ce cm
    rfl

/-- C7: the diversity filter returns a subsequence of its input (nothing is
reordered), the entries it keeps for each (work, act, scene) key are exactly
the first `n` same-key entries in list order, and consequently no key occurs
more than `n` times in the output. -/
theorem C7_diversity_cap (l : List Source) (n : ℕ) :
    (applyDiversity l n).Sublist l
    ∧ (∀ key : String × ℕ × ℕ,
        (applyDiversity l n).filter (fun s => decide (sourceKey s = key)) =
          (l.filter (fun s => decide (sourceKey s = key))).take n)
    ∧ (∀ key : String × ℕ × ℕ,
        ((applyDiversity l n).filter (fun s => decide (sourceKey s = key))).length ≤ n) := by
  refine ⟨applyDiversity_sublist l n, applyDiversity_filter_key l n, ?_⟩
  intro key
  rw [applyDiversity_filter_key l n key, List.length_take]
  exact min_le_left _ _

/-- C8: for every query, requested `k` and optional work filter, `retrieve`
returns at most `k` results and at most as many as survive the diversity
filter, and the sequence identifiers are "S1", "S2", ... assigned 1-based in
final output order after truncation. -/
theorem C8_result_length_and_sids (inp : RetrieveInput) :
    (retrieve inp).length ≤ inp.k
    ∧ (retrieve inp).length ≤ (applyDiversity (rankedSources inp) MAX_PER_SCENE).length
    ∧ (retrieve inp).map (fun s => s.sid) =
        (List.range' 1 (retrieve inp).length).map (fun i => "S" ++ toString i) := by
  unfold retrieve
  by_cases h : candidates inp = []
  · rw [if_pos h]
    refine ⟨Nat.zero_le _, Nat.zero_le _, ?_⟩
    rfl
  · rw [if_neg h]
    have hlen : (assignSids ((applyDiversity (rankedSources inp) MAX_PER_SCENE).take inp.k)).length
        = ((applyDiversity (rankedSources inp) MAX_PER_SCENE).take inp.k).length :=
      assignSidsFrom_length 1 _
    refine ⟨?_, ?_, ?_⟩
    · rw [hlen, List.length_take]
      exact min_le_left _ _
    · rw [hlen, List.length_take]
      exact min_le_right _ _
    · rw [hlen]
      exact assignSids_map_sid _

/-- C9: if any of the three persisted index artifacts is missing, loading
fails with the error for the first missing path — the message names the
missing file and the remediation "Run: python index.py", the exit code is 2 —
and no (partial) index triple is ever returned. -/
theorem C9_missing_artifact_fatal (b : Option (List (List String)))
    (e : Option (List (List ℚ))) (m : Option (List ChunkMeta))
    (h : b = none ∨ e = none ∨ m = none) :
    ∃ pth : String,
      (pth = bm25PathName ∨ pth = embPathName ∨ pth = metaPathName)
      ∧ loadIndex b e m = .error (mkMissingError pth)
      ∧ (mkMissingError pth).exitCode = 2
      ∧ containsSeq ("Run: python index.py").data (mkMissingError pth).message.data = true
      ∧ containsSeq pth.data (mkMissingError pth).message.data = true
      ∧ ∀ r, loadIndex b e m ≠ .ok r := by
  cases b with
  | none =>
    refine ⟨bm25PathName, Or.inl rfl, rfl, rfl, by decide, by decide, ?_⟩
    intro r hr
    exact Except.noConfusion hr
  | some cb =>
    cases e with
    | none =>
      refine ⟨embPathName, Or.inr (Or.inl rfl), rfl, rfl, by decide, by decide, ?_⟩
      intro r hr
      exact Except.noConfusion hr
    | some ce =>
      cases m with
      | none =>
        refine ⟨metaPathName, Or.inr (Or.inr rfl), rfl, rfl, by decide, by decide, ?_⟩
        intro r hr
        exact Except.noConfusion hr
      | some cm =>
        rcases h with h | h | h <;> exact absurd h (by simp)

/-- Witness for C9: with `bm25.pkl` missing (and the other two present),
loading fails with exit code 2 and the remediation message. -/
theorem C9_missing_artifact_fatal_witness :
    ((none : Option (List (List String))) = none
      ∨ (some [[(1:ℚ)]] : Option (List (List ℚ))) = none
      ∨ (some ([] : List ChunkMeta) : Option (List ChunkMeta)) = none)
    ∧ ∃ pth : String,
      (pth = bm25PathName ∨ pth = embPathName ∨ pth = metaPathName)
      ∧ loadIndex none (some [[(1:ℚ)]]) (some ([] : List ChunkMeta)) =
          .error (mkMissingError pth)
      ∧ (mkMissingError pth).exitCode = 2
      ∧ containsSeq ("Run: python index.py").data (mkMissingError pth).message.data = true
      ∧ containsSeq pth.data (mkMissingError pth).message.data = true
      ∧ ∀ r, loadIndex none (some [[(1:ℚ)]]) (some ([] : List ChunkMeta)) ≠ .ok r :=
  ⟨Or.inl rfl,
    C9_missing_artifact_fatal none (some [[(1:ℚ)]]) (some ([] : List ChunkMeta)) (Or.inl rfl)⟩

/-- C10 counterexample: on the query `x''y'z` the claim's rule ("the shortest
substring between the first quote-like character and the next one") yields
the empty phrase, but the regex `['\x27"](.+?)['\x27"]` requires non-empty
content, so the code extracts `'y` instead — the two differ. -/
theorem C10_apostrophe_delimiters_counterexample :
    claimedPhraseC10 "x''y'z" = some ""
    ∧ extractPhrase "x''y'z" = some "'y"
    ∧ extractPhrase "x''y'z" ≠ claimedPhraseC10 "x''y'z" :=
  ⟨by decide, by decide, by decide⟩

/-- C10 amended: whenever the first quote-like character of the query is
followed, with at least one character (none of them a newline or another
quote-like character) in between, by the next quote-like character, the
phrase-override step takes as target phrase exactly the text strictly between
those two characters — so a query with two contractions or possessives has
the text between its apostrophes treated as the quoted phrase instead of the
whole-query fallback.  (When the first two quote-like characters are
adjacent, the lazy group cannot be empty: the regex then matches a later
closing quote or fails and falls back.) -/
theorem C10_apostrophe_delimiters_amended (q : String)
    (front mid back : List Char) (c₁ c₂ : Char)
    (hdecomp : q.data = front ++ c₁ :: (mid ++ c₂ :: back))
    (hfront : ∀ c ∈ front, isQuoteChar c = false)
    (hq1 : isQuoteChar c₁ = true) (hq2 : isQuoteChar c₂ = true)
    (hmidne : mid ≠ [])
    (hmid : ∀ c ∈ mid, isQuoteChar c = false ∧ c ≠ '\n') :
    extractPhrase q = some (⟨mid⟩ : String)
    ∧ phraseTarget q = some (⟨mid⟩ : String) := by
  have hsearch : reSearchQuoted q.data = some mid := by
    rw [hdecomp, reSearchQuoted_append_no_quote front _ hfront]
    cases mid with
    | nil => exact absurd rfl hmidne
    | cons m ms =>
      obtain ⟨hmq, hmn⟩ := hmid m (by simp)
      have hclose : closeScan [m] (ms ++ c₂ :: back) =
          some (([m] : List Char).reverse ++ ms) :=
        closeScan_through ms [m] c₂ back (fun c hc => hmid c (by simp [hc])) hq2
      have hao : afterOpen ((m :: ms) ++ c₂ :: back) = some (m :: ms) := by
        show afterOpen (m :: (ms ++ c₂ :: back)) = some (m :: ms)
        simp only [afterOpen, hmn, if_false]
        rw [hclose]
        simp
      show reSearchQuoted (c₁ :: ((m :: ms) ++ c₂ :: back)) = some (m :: ms)
      simp only [reSearchQuoted, hq1, if_true, hao]
  have hex : extractPhrase q = some (⟨mid⟩ : String) := by
    unfold extractPhrase
    rw [hsearch]
    rfl
  refine ⟨hex, ?_⟩
  unfold phraseTarget
  rw [hex]

/-- Witness for the amended C10 at the query `what's the king's plan`: the
text between the two apostrophes, `s the king`, becomes the target phrase. -/
theorem C10_apostrophe_delimiters_amended_witness :
    (("what's the king's plan" : String).data =
        ("what" : String).data
          ++ '\'' :: (("s the king" : String).data ++ '\'' :: ("s plan" : String).data)
      ∧ (∀ c ∈ ("what" : String).data, isQuoteChar c = false)
      ∧ isQuoteChar '\'' = true
      ∧ ("s the king" : String).data ≠ []
      ∧ (∀ c ∈ ("s the king" : String).data, isQuoteChar c = false ∧ c ≠ '\n'))
    ∧ (extractPhrase "what's the king's plan" =
          some (⟨("s the king" : String).data⟩ : String)
      ∧ phraseTarget "what's the king's plan" =
          some (⟨("s the king" : String).data⟩ : String)) :=
  ⟨⟨by decide, by decide, by decide, by decide, by decide⟩,
    C10_apostrophe_delimiters_amended "what's the king's plan"
      ("what" : String).data ("s the king" : String).data ("s plan" : String).data
      '\'' '\'' (by decide) (by decide) (by decide) (by decide) (by decide) (by decide)⟩
